import Mathlib

/-!
Verification development for the Bibtex-Enricher repository.

The Python sources under `src/bibtex_enricher/` are shallowly embedded:
pure helpers become Lean functions, the network is an explicit environment
of provider responses, Python dicts become association lists, floats
produced by `difflib.SequenceMatcher.ratio` become exact rationals, and
text is modelled over its ASCII fragment (the Unicode normalisation steps
NFKC/NFKD are the identity there).
-/

namespace BibEnrich

/-- Python truthiness of a string: non-empty strings are truthy. -/
def strTruthy (s : String) : Bool := !s.isEmpty

/-- Python truthiness of an `Optional[str]`: `None` and `""` are falsy. -/
def otruthy : Option String → Bool
  | some s => strTruthy s
  | none => false

/-- A BibTeX entry: a Python `Dict[str, str]` as an association list with
unique keys; lookup takes the first binding. -/
abbrev Entry := List (String × String)

/-- Model of `entry.get(k)` / `entry[k]`: first binding of key `k`. -/
def Entry.get (e : Entry) (k : String) : Option String :=
  (e.find? (fun p => p.1 = k)).map (·.2)

/-- Model of `k in entry`: key membership. -/
def Entry.hasK (e : Entry) (k : String) : Bool := (Entry.get e k).isSome

/-- Model of `entry[k] = v`: replace the first binding of `k` in place, else append
(insertion-ordered dict update). -/
def Entry.set : Entry → String → String → Entry
  | [], k, v => [(k, v)]
  | p :: rest, k, v => if p.1 = k then (k, v) :: rest else p :: Entry.set rest k v

/-- JSON-like provider payloads: string leaves, arrays, and objects
(association lists, first binding wins), covering the shapes the
extraction code in the four provider clients navigates. -/
inductive Json where
  | str : String → Json
  | arr : List Json → Json
  | obj : List (String × Json) → Json

/-- Object field lookup (`d[k]` / `k in d` on dicts); `none` on non-objects. -/
def Json.objGet : Json → String → Option Json
  | .obj fs, k => (fs.find? (fun p => p.1 = k)).map (·.2)
  | _, _ => none

/-- Python truthiness of a JSON value: empty strings, arrays and objects
are falsy. -/
def Json.truthy : Json → Bool
  | .str s => !s.isEmpty
  | .arr l => !l.isEmpty
  | .obj l => !l.isEmpty

/-- The string carried by a JSON leaf, if any. -/
def Json.asStr : Json → Option String
  | .str s => some s
  | _ => none

/-! ## Title normalisation (`clean_title`, identical in all four provider
clients: `crossref_api.py` lines 45-58, `elsevier_api.py` 30-43,
`pubmed_api.py` 29-42, `semantic_scholar_api.py` 27-40)

`re.sub(r'[^\w\s-]', ' ', title)`, then `' '.join(title.split())`, then
`.lower()`, modelled over the ASCII fragment (`\w` = alphanumeric or
underscore, `\s` = the six ASCII whitespace characters). -/

/-- ASCII `\s`: space, tab, newline, carriage return, form feed, vertical tab. -/
def isPySpace (c : Char) : Bool :=
  c = ' ' || c = '\t' || c = '\n' || c = '\x0d' || c = '\x0c' || c = '\x0b'

/-- ASCII `\w`: alphanumeric or underscore. -/
def isWordChar (c : Char) : Bool := c.isAlphanum || c = '_'

/-- Model of `re.sub(r'[^\w\s-]', ' ', _)`: replace every character that is not a
word character, whitespace, or hyphen by a space. -/
def keepWordChars (cs : List Char) : List Char :=
  cs.map (fun c => if isWordChar c || isPySpace c || c = '-' then c else ' ')

/-- Model of `' '.join(s.split())`: collapse whitespace runs to single spaces and
strip both ends. -/
def splitJoin (cs : List Char) : List Char :=
  (((cs.foldr
    (fun c acc =>
      if isPySpace c then
        match acc with
        | [] => []
        | w :: _ => if w = [] then acc else [] :: acc
      else
        match acc with
        | [] => [[c]]
        | w :: ws => (c :: w) :: ws)
    ([] : List (List Char))).filter (fun w => !w.isEmpty)).intersperse [' ']).flatten

/-- Model of `clean_title` of the provider clients: strip non-word characters,
collapse whitespace, lowercase. -/
def cleanTitle (cs : List Char) : List Char :=
  (splitJoin (keepWordChars cs)).map Char.toLower

/-! ## `difflib.SequenceMatcher(None, a, b).ratio()`

Embedding of CPython's `difflib` as called by `title_similarity` in all
four provider clients: `isjunk` is `None` at every call site (so the junk
set is empty and the junk-aware halves of the extension loops never fire),
while the autojunk heuristic is active (elements of `b` occurring more
than `len(b)//100 + 1` times are dropped from the index when
`len(b) >= 200`).  The ratio `2*M/T` is computed exactly, as a rational. -/

/-- Ascending list of the positions of `c` in `b` (the `b2j` entry for `c`). -/
def indicesOf (b : List Char) (c : Char) : List Nat :=
  (List.range b.length).filter (fun j => b.getD j ' ' = c)

/-- Model of `b2j` lookup after the autojunk purge: a popular element (more than
`len(b)//100 + 1` occurrences, when `len(b) >= 200`) has no index entry. -/
def b2jOf (b : List Char) (c : Char) : List Nat :=
  if 200 ≤ b.length && b.length / 100 + 1 < (indicesOf b c).length then []
  else indicesOf b c

/-- Model of `j2len.get(j, 0)` on the running-match-length dictionary. -/
def dget (t : List (Nat × Nat)) (j : Nat) : Nat :=
  match t.find? (fun p => p.1 = j) with
  | some p => p.2
  | none => 0

/-- The `(besti, bestj, bestsize)` state of `find_longest_match`. -/
structure FSt where
  bi : Nat
  bj : Nat
  sz : Nat
deriving DecidableEq

/-- Inner loop of `find_longest_match` over the `b2j` positions of `a[i]`:
`j < blo` continues, `j >= bhi` breaks (position lists are ascending),
otherwise `k = j2len.get(j-1, 0) + 1` is recorded in the new dictionary
and the best block is updated when `k > bestsize`.  (`j - 1` at `j = 0`
is Python's `-1`, never a key, hence 0.) -/
def innerRow (blo bhi i : Nat) (old : List (Nat × Nat)) :
    List Nat → List (Nat × Nat) → FSt → List (Nat × Nat) × FSt
  | [], acc, st => (acc, st)
  | j :: js, acc, st =>
    if j < blo then innerRow blo bhi i old js acc st
    else if bhi ≤ j then (acc, st)
    else
      let k := (if j = 0 then 0 else dget old (j - 1)) + 1
      let st' := if st.sz < k then ⟨i + 1 - k, j + 1 - k, k⟩ else st
      innerRow blo bhi i old js ((j, k) :: acc) st'

/-- Outer loop of `find_longest_match`: rows `i = alo, …, alo+n-1`, each
row's dictionary becoming the `j2len` of the next. -/
def flmScan (a : List Char) (b2 : Char → List Nat) (blo bhi : Nat) :
    Nat → Nat → List (Nat × Nat) → FSt → FSt
  | 0, _, _, st => st
  | n + 1, i, old, st =>
    let r := innerRow blo bhi i old (b2 (a.getD i ' ')) [] st
    flmScan a b2 blo bhi n (i + 1) r.1 r.2

/-- Equality of two optional characters, false when either is absent. -/
def charEq : Option Char → Option Char → Bool
  | some x, some y => x = y
  | _, _ => false

/-- First extension loop of `find_longest_match` (the junk set is empty):
while `besti > alo and bestj > blo and a[besti-1] == b[bestj-1]`, grow the
block leftwards. -/
def extBack (a b : List Char) (alo blo : Nat) : Nat → Nat → Nat → FSt
  | 0, bj, sz => ⟨0, bj, sz⟩
  | bi + 1, bj, sz =>
    if alo < bi + 1 && blo < bj && charEq (a.get? bi) (b.get? (bj - 1)) then
      extBack a b alo blo bi (bj - 1) (sz + 1)
    else ⟨bi + 1, bj, sz⟩

/-- Second extension loop: while `besti+bestsize < ahi and bestj+bestsize
< bhi and a[besti+bestsize] == b[bestj+bestsize]`, grow the block
rightwards; `rem` counts `ahi - (besti + bestsize)` down structurally. -/
def extFwd (a b : List Char) (bhi bi bj : Nat) : Nat → Nat → Nat
  | 0, sz => sz
  | rem + 1, sz =>
    if bj + sz < bhi && charEq (a.get? (bi + sz)) (b.get? (bj + sz)) then
      extFwd a b bhi bi bj rem (sz + 1)
    else sz

/-- Model of `find_longest_match(alo, ahi, blo, bhi)` with an empty junk set: the
dictionary scan followed by the two non-junk extension loops. -/
def findLongestMatch (a b : List Char) (b2 : Char → List Nat)
    (alo ahi blo bhi : Nat) : FSt :=
  let st0 := flmScan a b2 blo bhi (ahi - alo) alo [] ⟨alo, blo, 0⟩
  let st1 := extBack a b alo blo st0.bi st0.bj st0.sz
  let sz2 := extFwd a b bhi st1.bi st1.bj (ahi - (st1.bi + st1.sz)) st1.sz
  ⟨st1.bi, st1.bj, sz2⟩

/-- Total size `M` of the matching blocks of `get_matching_blocks`
(the recursive decomposition around each longest match; merging adjacent
blocks does not change the total).  `fuel` bounds the recursion depth; an
interval of length `L` recurses only into intervals of length `< L`
(`matchTotalF_le` below rests on the same block bounds), so the callers'
`fuel = ahi - alo` is always sufficient. -/
def matchTotalF (a b : List Char) (b2 : Char → List Nat) :
    Nat → Nat → Nat → Nat → Nat → Nat
  | 0, _, _, _, _ => 0
  | f + 1, alo, ahi, blo, bhi =>
    let m := findLongestMatch a b b2 alo ahi blo bhi
    if m.sz = 0 then 0
    else
      matchTotalF a b b2 f alo m.bi blo m.bj + m.sz +
        matchTotalF a b b2 f (m.bi + m.sz) ahi (m.bj + m.sz) bhi

/-- Model of `SequenceMatcher(None, a, b).ratio()`: `2*M/T` with `T = len(a) +
len(b)`, and `1.0` when both are empty, as an exact rational. -/
def ratioOf (a b : List Char) : ℚ :=
  if a.length + b.length = 0 then 1
  else
    ((2 * matchTotalF a b (b2jOf b) a.length 0 a.length 0 b.length : Nat) : ℚ) /
      ((a.length + b.length : Nat) : ℚ)

/-- Model of `title_similarity(title1, title2)` of the provider clients: the
sequence-matcher ratio of the two cleaned titles. -/
def titleSimilarity (t1 t2 : String) : ℚ :=
  ratioOf (cleanTitle t1.data) (cleanTitle t2.data)

/-! ## Record Cleaner (`cleaner.py`, `BibTeXCleaner.clean_abstract`,
lines 11-49), over the ASCII fragment: `html.unescape` is modelled for
the five standard XML entities (on which it agrees with CPython), and
the Unicode normalisation steps NFKC / NFKD are the identity on ASCII. -/

/-- Model of `html.unescape`, restricted to the five XML named entities
`&amp; &lt; &gt; &quot; &#39;`; other text passes through unchanged. -/
def unescapeHtml : List Char → List Char
  | [] => []
  | '&' :: 'a' :: 'm' :: 'p' :: ';' :: rest => '&' :: unescapeHtml rest
  | '&' :: 'l' :: 't' :: ';' :: rest => '<' :: unescapeHtml rest
  | '&' :: 'g' :: 't' :: ';' :: rest => '>' :: unescapeHtml rest
  | '&' :: 'q' :: 'u' :: 'o' :: 't' :: ';' :: rest => '"' :: unescapeHtml rest
  | '&' :: '#' :: '3' :: '9' :: ';' :: rest => '\x27' :: unescapeHtml rest
  | c :: rest => c :: unescapeHtml rest

/-- Attempt to match `[^>]+>` at the head of the list, returning the
remainder after the closing `>`. -/
def takeTag : List Char → Option (List Char)
  | [] => none
  | '>' :: _ => none
  | _ :: rest => go rest
where
  go : List Char → Option (List Char)
    | [] => none
    | '>' :: rest => some rest
    | _ :: rest => go rest

/-- Model of `re.sub(r'<[^>]+>', ' ', _)`: each XML/HTML-style tag becomes one
space; `fuel`, set to the input length by `stripTags`, bounds the scan
(each step consumes at least one character). -/
def stripTagsF : Nat → List Char → List Char
  | 0, cs => cs
  | _ + 1, [] => []
  | f + 1, '<' :: cs =>
    match takeTag cs with
    | some rest => ' ' :: stripTagsF f rest
    | none => '<' :: stripTagsF f cs
  | f + 1, c :: cs => c :: stripTagsF f cs

def stripTags (cs : List Char) : List Char := stripTagsF cs.length cs

/-- ASCII letter test for the LaTeX command pattern. -/
def isAsciiLetter (c : Char) : Bool :=
  ('a' ≤ c && c ≤ 'z') || ('A' ≤ c && c ≤ 'Z')

/-- Attempt to match `[a-zA-Z]+(\{[^}]*\})?` at the head of the list
(after a backslash), returning the remainder. -/
def takeLatex : List Char → Option (List Char)
  | [] => none
  | c :: rest =>
    if isAsciiLetter c then some (afterBrace (dropLetters rest)) else none
where
  dropLetters : List Char → List Char
    | [] => []
    | c :: rest => if isAsciiLetter c then dropLetters rest else c :: rest
  braceEnd : List Char → Option (List Char)
    | [] => none
    | '\x7d' :: rest => some rest
    | _ :: rest => braceEnd rest
  afterBrace : List Char → List Char
    | '\x7b' :: rest =>
      match braceEnd rest with
      | some r => r
      | none => '\x7b' :: rest
    | cs => cs

/-- Model of `re.sub(r'\\[a-zA-Z]+(\{[^}]*\})?', ' ', _)`: LaTeX-style commands
become one space; `fuel` as in `stripTagsF`. -/
def stripLatexF : Nat → List Char → List Char
  | 0, cs => cs
  | _ + 1, [] => []
  | f + 1, '\\' :: cs =>
    match takeLatex cs with
    | some rest => ' ' :: stripLatexF f rest
    | none => '\\' :: stripLatexF f cs
  | f + 1, c :: cs => c :: stripLatexF f cs

def stripLatex (cs : List Char) : List Char := stripLatexF cs.length cs

/-- Model of `re.sub(r'\s+', ' ', _)`: collapse whitespace runs to single spaces. -/
def collapseWs : List Char → List Char
  | [] => []
  | [c] => [if isPySpace c then ' ' else c]
  | c :: d :: cs =>
    if isPySpace c then
      if isPySpace d then collapseWs (d :: cs) else ' ' :: collapseWs (d :: cs)
    else c :: collapseWs (d :: cs)

/-- The control characters removed by `clean_abstract`:
`[\x00-\x08\x0B\x0C\x0E-\x1F\x7F]`. -/
def isStrippedCtl (c : Char) : Bool :=
  (c ≤ '\x08') || c = '\x0b' || c = '\x0c' ||
    ('\x0e' ≤ c && c ≤ '\x1f') || c = '\x7f'

/-- Leading part of `re.sub(r'^\s*[\[\{\(]|\[\{\)]\s*$', '', _)`: a run of
whitespace followed by one opening bracket at the very start is removed. -/
def stripLeadBracket (cs : List Char) : List Char :=
  let ws := cs.takeWhile isPySpace
  match cs.drop ws.length with
  | b :: rest => if b = '[' || b = '\x7b' || b = '(' then rest else cs
  | [] => cs

/-- Trailing part of the same substitution: as written in the source the
second alternative is the literal sequence `[{)]` (followed by optional
whitespace) at the very end, and only that sequence is removed. -/
def stripTrailBracket (cs : List Char) : List Char :=
  let r := cs.reverse
  let ws := r.takeWhile isPySpace
  match r.drop ws.length with
  | ']' :: ')' :: '\x7b' :: '[' :: rest => rest.reverse
  | _ => cs

/-- Model of `text.strip()`. -/
def pyStrip (cs : List Char) : List Char :=
  ((cs.dropWhile isPySpace).reverse.dropWhile isPySpace).reverse

/-- Model of `BibTeXCleaner.clean_abstract` (`cleaner.py` lines 11-49): `None` for
falsy input, else decode HTML entities, strip tags, strip LaTeX commands,
NFKC-normalise (identity on ASCII), replace newlines by spaces, collapse
whitespace, drop control characters, NFKD-fold non-ASCII runs (identity
on ASCII), strip stray brackets, and trim. -/
def cleanAbstract (s : String) : Option String :=
  if s.isEmpty then none
  else
    let t := unescapeHtml s.data
    let t := stripTags t
    let t := stripLatex t
    let t := t.map (fun c => if c = '\n' then ' ' else c)
    let t := collapseWs t
    let t := t.filter (fun c => !isStrippedCtl c)
    let t := stripTrailBracket (stripLeadBracket t)
    some (String.mk (pyStrip t))

/-! ## Retry structure of the outbound provider calls

`oracle n` is the outcome of the `n`-th attempt of an outbound call:
`some d` a response, `none` a transient failure (a raised
`RequestException`).  `retryGo` is the common
`for attempt in range(max_retries)` loop of `elsevier_api.py` (lines
70-90 and 107-155), `pubmed_api.py` (69-87 and 100-145),
`semantic_scholar_api.py` (67-83 and 100-112) and `crossref_api.py`
(96-107): a success returns at once; a failing last attempt re-raises,
which the surrounding `except` turns into `None`; otherwise the loop
sleeps `retry_delay * (attempt + 1)` (with `retry_delay = 1`) and
retries.  The result triple is (result, attempts made, sleeps). -/
def retryGo (oracle : Nat → Option α) : Nat → Nat → Option α × Nat × List Nat
  | 0, _ => (none, 0, [])
  | r + 1, attempt =>
    match oracle attempt with
    | some d => (some d, 1, [])
    | none =>
      if r = 0 then (none, 1, [])
      else
        let rec' := retryGo oracle r (attempt + 1)
        (rec'.1, rec'.2.1 + 1, 1 * (attempt + 1) :: rec'.2.2)

/-- A retried outbound call with `max_retries = 3` (every retried call
site in the four clients uses exactly this shape). -/
def retried3 (oracle : Nat → Option α) : Option α × Nat × List Nat :=
  retryGo oracle 3 0

/-- Model of `CrossrefAPI.get_by_doi` (`crossref_api.py` lines 27-43): a single
GET inside `try/except`, no retry loop; any failure returns `None`. -/
def crossrefGetByDoiCall (oracle : Nat → Option α) : Option α × Nat × List Nat :=
  match oracle 0 with
  | some d => (some d, 1, [])
  | none => (none, 1, [])

/-- The follow-up paper-details GET of
`SemanticScholarAPI.search_by_title` (`semantic_scholar_api.py` lines
134-137): a single unretried GET; a failure propagates to the outer
`except`, which returns `None`. -/
def ssDetailsCall (oracle : Nat → Option α) : Option α × Nat × List Nat :=
  match oracle 0 with
  | some d => (some d, 1, [])
  | none => (none, 1, [])

/-! ## Crossref title-search selection (`crossref_api.py` lines 109-133)

After the retried GET, the result items are scanned: items without a
truthy `title` are skipped, the title is `result['title'][0]` when the
value is a list, each is scored by `title_similarity`, `similarity >
best_similarity` updates the running best, and the best match is
returned when `best_similarity >= min_similarity`. -/

/-- The candidate title used for scoring, `none` when the item is skipped
(`'title' not in result or not result['title']`); list-valued titles
contribute their first element. -/
def crTitleOf (it : Json) : Option String :=
  match it.objGet "title" with
  | none => none
  | some v =>
    if v.truthy then
      match v with
      | .str s => some s
      | .arr (x :: _) => x.asStr
      | _ => none
    else none

/-- The scan loop: running `(best_match, best_similarity)`, threshold
check at the end. -/
def crossrefPickGo (query : String) (minSim : ℚ) :
    List Json → Option Json → ℚ → Option Json
  | [], bm, bs => if minSim ≤ bs then bm else none
  | it :: rest, bm, bs =>
    match crTitleOf it with
    | none => crossrefPickGo query minSim rest bm bs
    | some rt =>
      let s := titleSimilarity query rt
      if bs < s then crossrefPickGo query minSim rest (some it) s
      else crossrefPickGo query minSim rest bm bs

/-- Model of `CrossrefAPI.search_by_title`'s candidate selection over the items of
a successful response (`if not results: return None`, then the scan). -/
def crossrefPick (query : String) (items : List Json) (minSim : ℚ) : Option Json :=
  if items.isEmpty then none
  else crossrefPickGo query minSim items none 0

/-! ## Abstract extraction (`get_abstract` of each provider client)

Abstracts are modelled as string leaves of the JSON payloads. -/

/-- Model of `CrossrefAPI.get_abstract` (`crossref_api.py` lines 139-151):
`entry['abstract']` when present. -/
def crossrefGetAbstract (j : Json) : Option String :=
  (j.objGet "abstract").bind Json.asStr

/-- Model of `SemanticScholarAPI.get_abstract` (`semantic_scholar_api.py` lines
147-157): `entry.get('abstract')`. -/
def ssGetAbstract (j : Json) : Option String :=
  (j.objGet "abstract").bind Json.asStr

/-- Model of `ElsevierAPI.get_abstract` (`elsevier_api.py` lines 157-182): the
`dc:description` of the `coredata` of either retrieval response; any
missing key on the way (a `KeyError`) yields `None`. -/
def elsevierGetAbstract (j : Json) : Option String :=
  if (j.objGet "abstracts-retrieval-response").isSome then
    ((j.objGet "abstracts-retrieval-response").bind
      (fun r => (r.objGet "coredata").bind
        (fun c => (c.objGet "dc:description").bind Json.asStr)))
  else if (j.objGet "full-text-retrieval-response").isSome then
    ((j.objGet "full-text-retrieval-response").bind
      (fun r => (r.objGet "coredata").bind
        (fun c => (c.objGet "dc:description").bind Json.asStr)))
  else none

/-- Model of `PubMedAPI.get_abstract` (`pubmed_api.py` lines 147-163):
`entry['MedlineCitation']['Article']['Abstract']['AbstractText'][0]` when
the `Abstract` key exists; `KeyError`/`IndexError` yield `None`. -/
def pubmedGetAbstract (j : Json) : Option String :=
  match (j.objGet "MedlineCitation").bind (fun m => m.objGet "Article") with
  | none => none
  | some article =>
    match article.objGet "Abstract" with
    | none => none
    | some ab =>
      match ab.objGet "AbstractText" with
      | some (.arr (x :: _)) => x.asStr
      | _ => none

/-! ## The enrichment engine (`enrich.py`, `BibTeXEnricher`)

The network is an explicit deterministic environment mapping each
provider request to its result (`None` = no response, whether transient
failure after retries or not-found — the engine treats both as `None`,
see each client's `except` handlers).  Every environment consultation is
recorded in a trace. -/

/-- One provider consultation made by `enrich_entry`, with its argument. -/
inductive PCall where
  | crossrefSearch : String → PCall
  | crossrefDoi : String → PCall
  | elsevierDoi : String → PCall
  | elsevierSearch : String → PCall
  | pubmedPmid : String → PCall
  | pubmedSearch : String → PCall
  | ssDoi : String → PCall
  | ssSearch : String → PCall
deriving DecidableEq

/-- The provider-response environment: the value each client method
returns to the engine for a given argument. -/
structure Env where
  crossrefSearchR : String → Option Json
  crossrefDoiR : String → Option Json
  elsevierDoiR : String → Option Json
  elsevierSearchR : String → Option Json
  pubmedPmidR : String → Option Json
  pubmedSearchR : String → Option Json
  ssDoiR : String → Option Json
  ssSearchR : String → Option Json

/-- The engine configuration: the three per-provider toggles and the
dry-run flag of `enrich_entry`, and the two credentials on which client
construction depends (`enrich.py` lines 37-40: `PubMedAPI` is built only
when `pubmed_email` is truthy, `ElsevierAPI` only when
`elsevier_api_key` is truthy; Crossref and Semantic Scholar clients are
always built). -/
structure Cfg where
  useSS : Bool
  usePubmed : Bool
  useElsevier : Bool
  dryRun : Bool
  elsevierKey : Option String
  pubmedEmail : Option String

/-- The DOI-discovery step (`enrich.py` lines 76-84): when the entry's
`doi` is falsy and a `title` key exists, a Crossref title search is made;
a truthy result carrying a `DOI` key sets `entry['doi']` and the local
`doi`.  Returns the local `doi` value, the (possibly updated) entry, and
the trace of the step. -/
def discover (env : Env) (e : Entry) : Option String × Entry × List PCall :=
  let doi0 := Entry.get e "doi"
  if !otruthy doi0 && Entry.hasK e "title" then
    let t := (Entry.get e "title").getD ""
    match env.crossrefSearchR t with
    | some j =>
      if j.truthy then
        match j.objGet "DOI" with
        | some v =>
          let d := (Json.asStr v).getD ""
          (some d, Entry.set e "doi" d, [.crossrefSearch t])
        | none => (doi0, e, [.crossrefSearch t])
      else (doi0, e, [.crossrefSearch t])
    | none => (doi0, e, [.crossrefSearch t])
  else (doi0, e, [])

/-- The eight abstract-seeking provider steps of `enrich_entry`, in
source order (`enrich.py`: Elsevier DOI lookup then title search, lines
86-109; PubMed PMID lookup then title search, 111-134; Crossref DOI
lookup then title search, 136-156; Semantic Scholar DOI lookup then
title search, 158-181). -/
inductive StepId where
  | elsDoi | elsTitle | pmPmid | pmTitle | crDoi | crTitle | ssDoi | ssTitle
deriving DecidableEq

/-- The fixed order in which `enrich_entry` runs the steps. -/
def stepOrder : List StepId :=
  [.elsDoi, .elsTitle, .pmPmid, .pmTitle, .crDoi, .crTitle, .ssDoi, .ssTitle]

/-- The guard under which `enrich_entry` performs a step: the provider
block's toggle-and-availability test conjoined with the step's own test
(`if doi:`, `if 'title' in entry:`, `if 'pmid' in entry:`). -/
def stepGuard (cfg : Cfg) (e : Entry) (doi : Option String) : StepId → Bool
  | .elsDoi => cfg.useElsevier && otruthy cfg.elsevierKey && otruthy doi
  | .elsTitle => cfg.useElsevier && otruthy cfg.elsevierKey && Entry.hasK e "title"
  | .pmPmid => cfg.usePubmed && otruthy cfg.pubmedEmail && Entry.hasK e "pmid"
  | .pmTitle => cfg.usePubmed && otruthy cfg.pubmedEmail && Entry.hasK e "title"
  | .crDoi => otruthy doi
  | .crTitle => Entry.hasK e "title"
  | .ssDoi => cfg.useSS && otruthy doi
  | .ssTitle => cfg.useSS && Entry.hasK e "title"

/-- The environment consultation a step performs. -/
def stepFetch (env : Env) (e : Entry) (doi : Option String) : StepId → Option Json
  | .elsDoi => env.elsevierDoiR (doi.getD "")
  | .elsTitle => env.elsevierSearchR ((Entry.get e "title").getD "")
  | .pmPmid => env.pubmedPmidR ((Entry.get e "pmid").getD "")
  | .pmTitle => env.pubmedSearchR ((Entry.get e "title").getD "")
  | .crDoi => env.crossrefDoiR (doi.getD "")
  | .crTitle => env.crossrefSearchR ((Entry.get e "title").getD "")
  | .ssDoi => env.ssDoiR (doi.getD "")
  | .ssTitle => env.ssSearchR ((Entry.get e "title").getD "")

/-- The trace record of a step's consultation. -/
def stepCallTag (e : Entry) (doi : Option String) : StepId → PCall
  | .elsDoi => .elsevierDoi (doi.getD "")
  | .elsTitle => .elsevierSearch ((Entry.get e "title").getD "")
  | .pmPmid => .pubmedPmid ((Entry.get e "pmid").getD "")
  | .pmTitle => .pubmedSearch ((Entry.get e "title").getD "")
  | .crDoi => .crossrefDoi (doi.getD "")
  | .crTitle => .crossrefSearch ((Entry.get e "title").getD "")
  | .ssDoi => .ssDoi (doi.getD "")
  | .ssTitle => .ssSearch ((Entry.get e "title").getD "")

/-- The step's extraction function (`get_abstract` of its provider). -/
def extractOf : StepId → Json → Option String
  | .elsDoi => elsevierGetAbstract
  | .elsTitle => elsevierGetAbstract
  | .pmPmid => pubmedGetAbstract
  | .pmTitle => pubmedGetAbstract
  | .crDoi => crossrefGetAbstract
  | .crTitle => crossrefGetAbstract
  | .ssDoi => ssGetAbstract
  | .ssTitle => ssGetAbstract

/-- The abstract a performed step yields, if any: the response must be
truthy (`if <data>:`), extraction must produce a value, and the value
must be truthy (`if abstract:`). -/
def stepYield (env : Env) (e : Entry) (doi : Option String) (s : StepId) :
    Option String :=
  match stepFetch env e doi s with
  | some j =>
    if j.truthy then
      match extractOf s j with
      | some t => if strTruthy t then some t else none
      | none => none
    else none
  | none => none

/-- The guarded step cascade of `enrich_entry` (lines 86-184): a step
whose guard fails is skipped; a performed step is traced; the first
truthy abstract is assigned (`entry['abstract'] = abstract`) and the
function returns, skipping everything after. -/
def runSteps (cfg : Cfg) (env : Env) (e : Entry) (doi : Option String) :
    List StepId → Entry × List PCall
  | [] => (e, [])
  | s :: rest =>
    if stepGuard cfg e doi s then
      match stepYield env e doi s with
      | some t => (Entry.set e "abstract" t, [stepCallTag e doi s])
      | none =>
        let r := runSteps cfg env e doi rest
        (r.1, stepCallTag e doi s :: r.2)
    else runSteps cfg env e doi rest

/-- Model of `BibTeXEnricher.enrich_entry` (`enrich.py` lines 45-184): dry-run
returns at once; an entry with a truthy `abstract` returns at once;
otherwise DOI discovery, then the eight provider steps in order. -/
def enrichEntry (cfg : Cfg) (env : Env) (e : Entry) : Entry × List PCall :=
  if cfg.dryRun then (e, [])
  else if otruthy (Entry.get e "abstract") then (e, [])
  else
    let d := discover env e
    let r := runSteps cfg env d.2.1 d.1 stepOrder
    (r.1, d.2.2 ++ r.2)

/-- The per-batch counters of `enrich_file`. -/
structure Stats where
  total : Nat
  enriched : Nat
  failed : Nat
  alreadyHad : Nat
deriving DecidableEq

/-- The entry loop of `enrich_file` (`enrich.py` lines 221-238): for each
entry, remember whether it already had a truthy abstract, enrich it, and
bump exactly one of the three outcome counters.  Returns the processed
entries, the three counters, and the concatenated trace. -/
def enrichBatch (cfg : Cfg) (env : Env) :
    List Entry → List Entry × Nat × Nat × Nat × List PCall
  | [] => ([], 0, 0, 0, [])
  | e :: rest =>
    let had := otruthy (Entry.get e "abstract")
    let r := enrichEntry cfg env e
    let b := enrichBatch cfg env rest
    (r.1 :: b.1,
     (if had then 0 else if otruthy (Entry.get r.1 "abstract") then 1 else 0) + b.2.1,
     (if had then 0 else if otruthy (Entry.get r.1 "abstract") then 0 else 1) + b.2.2.1,
     (if had then 1 else 0) + b.2.2.2.1,
     r.2 ++ b.2.2.2.2)

/-- Model of `BibTeXEnricher.enrich_file` (`enrich.py` lines 186-255), with file
I/O abstracted to lists: the loaded entries come in, `stats['total']` is
their count, the loop processes each entry, and the enriched record set
is saved (`some`) unless `dry_run` (`none`, lines 245-247). -/
def enrichFile (cfg : Cfg) (env : Env) (entries : List Entry) :
    List Entry × Stats × List PCall × Option (List Entry) :=
  let b := enrichBatch cfg env entries
  (b.1, ⟨entries.length, b.2.1, b.2.2.1, b.2.2.2.1⟩, b.2.2.2.2,
    if cfg.dryRun then none else some b.1)

/-! ## Derived notions used to state the claims -/

/-- Whether a traced consultation went to the Elsevier client. -/
def PCall.toElsevier : PCall → Bool
  | .elsevierDoi _ => true
  | .elsevierSearch _ => true
  | _ => false

/-- Whether a traced consultation went to the PubMed client. -/
def PCall.toPubmed : PCall → Bool
  | .pubmedPmid _ => true
  | .pubmedSearch _ => true
  | _ => false

/-- Whether a traced consultation went to the Semantic Scholar client. -/
def PCall.toSS : PCall → Bool
  | .ssDoi _ => true
  | .ssSearch _ => true
  | _ => false

/-- Whether a traced consultation went to the Crossref client. -/
def PCall.toCrossref : PCall → Bool
  | .crossrefSearch _ => true
  | .crossrefDoi _ => true
  | _ => false

/-- The local `doi` value after the discovery step. -/
def postDoi (env : Env) (e : Entry) : Option String := (discover env e).1

/-- The entry after the discovery step. -/
def postEntry (env : Env) (e : Entry) : Entry := (discover env e).2.1

/-- The trace of the discovery step. -/
def discoverTrace (env : Env) (e : Entry) : List PCall := (discover env e).2.2

/-- The abstract-seeking steps `enrich_entry` will perform for a record:
the fixed order, restricted to the steps whose guards hold. -/
def plannedSteps (cfg : Cfg) (env : Env) (e : Entry) : List StepId :=
  stepOrder.filter (stepGuard cfg (postEntry env e) (postDoi env e))

/-- The abstract a planned step would yield. -/
def plannedYield (env : Env) (e : Entry) (s : StepId) : Option String :=
  stepYield env (postEntry env e) (postDoi env e) s

/-- The trace record of a planned step. -/
def plannedTag (env : Env) (e : Entry) (s : StepId) : PCall :=
  stepCallTag (postEntry env e) (postDoi env e) s

/-- The scored candidates of a Crossref title search: each item that is
not skipped, paired with its similarity to the query. -/
def crScored (query : String) (items : List Json) : List (Json × ℚ) :=
  items.filterMap (fun it => (crTitleOf it).map (fun rt => (it, titleSimilarity query rt)))

/-- The `(best_match, best_similarity)` fold of the selection loop,
isolated over scored candidates. -/
def bestOf : List (Json × ℚ) → Option Json × ℚ → Option Json × ℚ
  | [], acc => acc
  | p :: rest, acc => bestOf rest (if acc.2 < p.2 then (some p.1, p.2) else acc)

/-- Invariant of the `j2len` dictionaries of `find_longest_match`: every
recorded running length fits the window and the row index. -/
def TblOK (blo bhi cap : Nat) (t : List (Nat × Nat)) : Prop :=
  ∀ p ∈ t, blo ≤ p.1 ∧ p.1 < bhi ∧ p.2 + blo ≤ p.1 + 1 ∧ p.2 ≤ cap

/-- Invariant of the best-block state of `find_longest_match`: an empty
block sits at the window origin, a non-empty one lies inside
`[alo, u) × [blo, bhi)`. -/
def StOK (alo u blo bhi : Nat) (st : FSt) : Prop :=
  (st.sz = 0 → st.bi = alo ∧ st.bj = blo) ∧
  (1 ≤ st.sz → alo ≤ st.bi ∧ st.bi + st.sz ≤ u ∧ blo ≤ st.bj ∧ st.bj + st.sz ≤ bhi)

/-! ## Concrete data for witnesses and counterexamples -/

/-- The environment in which every provider request has no result. -/
def envNone : Env :=
  ⟨fun _ => none, fun _ => none, fun _ => none, fun _ => none,
   fun _ => none, fun _ => none, fun _ => none, fun _ => none⟩

/-- A configuration with every toggle off, no credentials, not dry-run. -/
def cfgOff : Cfg := ⟨false, false, false, false, none, none⟩

/-- A configuration with every provider enabled and credentialed. -/
def cfgOn : Cfg := ⟨true, true, true, false, some "k", some "e"⟩

/-- The all-enabled configuration in dry-run mode. -/
def cfgDry : Cfg := ⟨true, true, true, true, some "k", some "e"⟩

/-- An environment whose Crossref DOI lookup returns a payload whose
abstract field holds markup and an HTML entity. -/
def envRawAbs : Env :=
  { envNone with crossrefDoiR := fun d =>
      if d = "10.1/x" then some (.obj [("abstract", .str "<p>Foo &amp; Bar</p>")])
      else none }

/-- An Elsevier abstract-retrieval payload carrying an abstract. -/
def elsPayload : Json :=
  Json.obj [("abstracts-retrieval-response",
    Json.obj [("coredata", Json.obj [("dc:description", Json.str "An abstract.")])])]

/-- An environment where only Elsevier answers: the DOI lookup returns an
abstract-bearing Elsevier payload. -/
def envElsOnly : Env :=
  { envNone with elsevierDoiR := fun d =>
      if d = "10.1/x" then some elsPayload else none }

/-! # Theorems -/

theorem Entry.get_nil (k : String) : Entry.get [] k = none := rfl

theorem Entry.get_cons (p : String × String) (rest : Entry) (k : String) :
    Entry.get (p :: rest) k = if p.1 = k then some p.2 else Entry.get rest k := by
  by_cases h : p.1 = k <;> simp [Entry.get, List.find?_cons, h]

theorem Entry.get_set_self (e : Entry) (k v : String) :
    Entry.get (Entry.set e k v) k = some v := by
  induction e with
  | nil => simp [Entry.set, Entry.get_cons]
  | cons p rest ih =>
    by_cases h : p.1 = k
    · simp [Entry.set, h, Entry.get_cons]
    · simp [Entry.set, h, Entry.get_cons, ih]

theorem Entry.get_set_ne (e : Entry) (k k' v : String) (h : k' ≠ k) :
    Entry.get (Entry.set e k v) k' = Entry.get e k' := by
  induction e with
  | nil => simp [Entry.set, Entry.get_cons, Entry.get_nil, Ne.symm h]
  | cons p rest ih =>
    by_cases hp : p.1 = k
    · have hne : p.1 ≠ k' := by rw [hp]; exact Ne.symm h
      simp [Entry.set, hp, Entry.get_cons, Ne.symm h, hne]
    · by_cases hp' : p.1 = k'
      · simp [Entry.set, hp, Entry.get_cons, hp', h]
      · simp [Entry.set, hp, Entry.get_cons, hp', ih]

theorem runSteps_none (cfg : Cfg) (env : Env) (e : Entry) (doi : Option String) :
    ∀ L : List StepId,
    (∀ s ∈ L, stepGuard cfg e doi s = true → stepYield env e doi s = none) →
    runSteps cfg env e doi L =
      (e, (L.filter (stepGuard cfg e doi)).map (stepCallTag e doi)) := by
  intro L
  induction L with
  | nil => intro _; simp [runSteps]
  | cons a rest ih =>
    intro h
    have ih' := ih (fun u hu hgu => h u (List.mem_cons_of_mem _ hu) hgu)
    by_cases hg : stepGuard cfg e doi a = true
    · have hy := h a (List.mem_cons_self _ _) hg
      simp [runSteps, hg, hy, List.filter_cons, ih']
    · simp [runSteps, hg, List.filter_cons, ih']

theorem runSteps_split (cfg : Cfg) (env : Env) (e : Entry) (doi : Option String) :
    ∀ (L l₁ : List StepId) (s : StepId) (l₂ : List StepId) (t : String),
    L.filter (stepGuard cfg e doi) = l₁ ++ s :: l₂ →
    (∀ u ∈ l₁, stepYield env e doi u = none) →
    stepYield env e doi s = some t →
    runSteps cfg env e doi L =
      (Entry.set e "abstract" t, (l₁ ++ [s]).map (stepCallTag e doi)) := by
  intro L
  induction L with
  | nil =>
    intro l₁ s l₂ t hf _ _
    simp only [List.filter_nil] at hf
    exact absurd hf.symm (List.append_ne_nil_of_right_ne_nil _ (by simp))
  | cons a rest ih =>
    intro l₁ s l₂ t hf h1 hs
    by_cases hg : stepGuard cfg e doi a = true
    · rw [List.filter_cons_of_pos hg] at hf
      cases l₁ with
      | nil =>
        simp only [List.nil_append, List.cons.injEq] at hf
        obtain ⟨rfl, _⟩ := hf
        simp [runSteps, hg, hs]
      | cons u l₁' =>
        simp only [List.cons_append, List.cons.injEq] at hf
        obtain ⟨rfl, hf'⟩ := hf
        have hy := h1 a (List.mem_cons_self _ _)
        have := ih l₁' s l₂ t hf' (fun v hv => h1 v (List.mem_cons_of_mem _ hv)) hs
        simp [runSteps, hg, hy, this]
    · rw [List.filter_cons_of_neg hg] at hf
      simpa [runSteps, hg] using ih l₁ s l₂ t hf h1 hs

theorem runSteps_calls (cfg : Cfg) (env : Env) (e : Entry) (doi : Option String) :
    ∀ (L : List StepId) (c : PCall), c ∈ (runSteps cfg env e doi L).2 →
    ∃ s, s ∈ L ∧ stepGuard cfg e doi s = true ∧ c = stepCallTag e doi s := by
  intro L
  induction L with
  | nil => intro c hc; simp [runSteps] at hc
  | cons a rest ih =>
    intro c hc
    by_cases hg : stepGuard cfg e doi a = true
    · cases hy : stepYield env e doi a with
      | some t =>
        simp [runSteps, hg, hy] at hc
        exact ⟨a, List.mem_cons_self _ _, hg, hc⟩
      | none =>
        simp only [runSteps, hg, if_true, hy, List.mem_cons] at hc
        rcases hc with hc | hc
        · exact ⟨a, List.mem_cons_self _ _, hg, hc⟩
        · obtain ⟨s, hs, hgs, hcs⟩ := ih c hc
          exact ⟨s, List.mem_cons_of_mem _ hs, hgs, hcs⟩
    · simp only [runSteps, hg, if_false, Bool.false_eq_true] at hc
      obtain ⟨s, hs, hgs, hcs⟩ := ih c hc
      exact ⟨s, List.mem_cons_of_mem _ hs, hgs, hcs⟩

theorem discoverTrace_mem (env : Env) (e : Entry) (c : PCall)
    (hc : c ∈ discoverTrace env e) : ∃ t, c = PCall.crossrefSearch t := by
  unfold discoverTrace discover at hc
  dsimp only at hc
  split at hc
  · split at hc
    · split at hc
      · split at hc
        · simp at hc; exact ⟨_, hc⟩
        · simp at hc; exact ⟨_, hc⟩
      · simp at hc; exact ⟨_, hc⟩
    · simp at hc; exact ⟨_, hc⟩
  · simp at hc

theorem enrichEntry_eq (cfg : Cfg) (env : Env) (e : Entry)
    (hdry : cfg.dryRun = false) (habs : otruthy (Entry.get e "abstract") = false) :
    enrichEntry cfg env e =
      ((runSteps cfg env (postEntry env e) (postDoi env e) stepOrder).1,
       discoverTrace env e ++
         (runSteps cfg env (postEntry env e) (postDoi env e) stepOrder).2) := by
  simp [enrichEntry, hdry, habs, postEntry, postDoi, discoverTrace]

theorem postEntry_eq (env : Env) (e : Entry) :
    postEntry env e = e ∨ ∃ d, postEntry env e = Entry.set e "doi" d := by
  unfold postEntry discover
  dsimp only
  split
  · split
    · split
      · split
        · exact Or.inr ⟨_, rfl⟩
        · exact Or.inl rfl
      · exact Or.inl rfl
    · exact Or.inl rfl
  · exact Or.inl rfl

theorem enrichBatch_counts (cfg : Cfg) (env : Env) :
    ∀ l : List Entry,
    (enrichBatch cfg env l).2.1 + (enrichBatch cfg env l).2.2.1 +
      (enrichBatch cfg env l).2.2.2.1 = l.length := by
  intro l
  induction l with
  | nil => simp [enrichBatch]
  | cons e rest ih =>
    simp only [enrichBatch, List.length_cons]
    split_ifs <;> omega

/-- C10: each processed record bumps exactly one of the three outcome
counters, so `alreadyHad + enriched + failed = total`, and `total` is the
number of loaded records. -/
theorem stats_partition (cfg : Cfg) (env : Env) (entries : List Entry) :
    (enrichFile cfg env entries).2.1.alreadyHad +
        (enrichFile cfg env entries).2.1.enriched +
        (enrichFile cfg env entries).2.1.failed =
      (enrichFile cfg env entries).2.1.total ∧
    (enrichFile cfg env entries).2.1.total = entries.length := by
  refine ⟨?_, by simp [enrichFile]⟩
  have := enrichBatch_counts cfg env entries
  simp only [enrichFile]
  omega

/-- C9: in dry-run mode `enrich_entry` makes no provider calls and
returns the record unchanged, and `enrich_file` leaves every record
untouched, makes no provider calls, and does not write the output. -/
theorem dry_run_frame (cfg : Cfg) (h : cfg.dryRun = true) :
    (∀ env e, enrichEntry cfg env e = (e, [])) ∧
    (∀ env entries, (enrichFile cfg env entries).1 = entries ∧
      (enrichFile cfg env entries).2.2.1 = [] ∧
      (enrichFile cfg env entries).2.2.2 = none) := by
  have h1 : ∀ env e, enrichEntry cfg env e = (e, []) := by
    intro env e; simp [enrichEntry, h]
  refine ⟨h1, fun env entries => ?_⟩
  have hb : ∀ l : List Entry, (enrichBatch cfg env l).1 = l ∧
      (enrichBatch cfg env l).2.2.2.2 = [] := by
    intro l
    induction l with
    | nil => simp [enrichBatch]
    | cons e rest ih => simp [enrichBatch, h1, ih.1, ih.2]
  exact ⟨by simp [enrichFile, (hb entries).1], by simp [enrichFile, (hb entries).2],
    by simp [enrichFile, h]⟩

/-- Witness for C9 at a concrete configuration, environment and record. -/
theorem dry_run_frame_witness :
    enrichEntry cfgDry envNone [("title", "T")] = ([("title", "T")], []) ∧
    (enrichFile cfgDry envNone [[("title", "T")]]).2.2.2 = none :=
  ⟨(dry_run_frame cfgDry rfl).1 envNone _,
   ((dry_run_frame cfgDry rfl).2 envNone _).2.2⟩

/-- C5: a record with a truthy abstract is returned unchanged with no
provider calls, and a batch of such records produces an empty trace,
unchanged records, and `alreadyHad = total`. -/
theorem already_had_short_circuit :
    (∀ cfg env e, otruthy (Entry.get e "abstract") = true →
      enrichEntry cfg env e = (e, [])) ∧
    (∀ cfg env entries, (∀ e ∈ entries, otruthy (Entry.get e "abstract") = true) →
      (enrichFile cfg env entries).1 = entries ∧
      (enrichFile cfg env entries).2.2.1 = [] ∧
      (enrichFile cfg env entries).2.1.alreadyHad =
        (enrichFile cfg env entries).2.1.total) := by
  have h1 : ∀ (cfg : Cfg) env e, otruthy (Entry.get e "abstract") = true →
      enrichEntry cfg env e = (e, []) := by
    intro cfg env e h
    simp [enrichEntry, h]
  refine ⟨h1, fun cfg env entries hall => ?_⟩
  have hb : ∀ l : List Entry, (∀ e ∈ l, otruthy (Entry.get e "abstract") = true) →
      (enrichBatch cfg env l).1 = l ∧ (enrichBatch cfg env l).2.2.2.2 = [] ∧
      (enrichBatch cfg env l).2.2.2.1 = l.length := by
    intro l
    induction l with
    | nil => intro _; simp [enrichBatch]
    | cons e rest ih =>
      intro hl
      have he := hl e (List.mem_cons_self _ _)
      have ihr := ih (fun u hu => hl u (List.mem_cons_of_mem _ hu))
      simp [enrichBatch, he, h1 cfg env e he, ihr.1, ihr.2.1, ihr.2.2, Nat.add_comm]
  have := hb entries hall
  exact ⟨by simp [enrichFile, this.1], by simp [enrichFile, this.2.1],
    by simp [enrichFile, this.2.2]⟩

/-- Witness for C5 at a concrete record and batch. -/
theorem already_had_witness :
    enrichEntry cfgOn envNone [("abstract", "A")] = ([("abstract", "A")], []) ∧
    (enrichFile cfgOn envNone [[("abstract", "A")]]).2.1.alreadyHad =
      (enrichFile cfgOn envNone [[("abstract", "A")]]).2.1.total :=
  ⟨already_had_short_circuit.1 cfgOn envNone _ (by decide),
   (already_had_short_circuit.2 cfgOn envNone [[("abstract", "A")]]
     (by intro e he; simp at he; subst he; decide)).2.2⟩

/-- C3 (amended): every retried outbound call uses the shared 3-attempt
loop — a call that keeps failing transiently is attempted exactly 3
times with sleeps `[1, 2]` (`attempt_index * 1`) and finally reports no
result; a call succeeding at attempt `i < 3` stops after `i+1` attempts;
but `CrossrefAPI.get_by_doi` and the Semantic Scholar details fetch make
exactly one attempt. -/
theorem retry_behavior :
    (∀ (α : Type) (oracle : Nat → Option α), (∀ n, oracle n = none) →
      retried3 oracle = (none, 3, [1, 2])) ∧
    (∀ (α : Type) (oracle : Nat → Option α) (d : α), oracle 0 = some d →
      retried3 oracle = (some d, 1, [])) ∧
    (∀ (α : Type) (oracle : Nat → Option α) (d : α), oracle 0 = none →
      oracle 1 = some d → retried3 oracle = (some d, 2, [1])) ∧
    (∀ (α : Type) (oracle : Nat → Option α) (d : α), oracle 0 = none →
      oracle 1 = none → oracle 2 = some d → retried3 oracle = (some d, 3, [1, 2])) ∧
    (∀ (α : Type) (oracle : Nat → Option α),
      (crossrefGetByDoiCall oracle).2.1 = 1 ∧ (ssDetailsCall oracle).2.1 = 1) := by
  refine ⟨?_, ?_, ?_, ?_, ?_⟩
  · intro α oracle h; simp [retried3, retryGo, h 0, h 1, h 2]
  · intro α oracle d h; simp [retried3, retryGo, h]
  · intro α oracle d h0 h1; simp [retried3, retryGo, h0, h1]
  · intro α oracle d h0 h1 h2; simp [retried3, retryGo, h0, h1, h2]
  · intro α oracle
    constructor
    · cases h : oracle 0 <;> simp [crossrefGetByDoiCall, h]
    · cases h : oracle 0 <;> simp [ssDetailsCall, h]

/-- Witness for C3's amended theorem on an always-failing oracle. -/
theorem retry_behavior_witness :
    retried3 (fun _ => (none : Option Unit)) = (none, 3, [1, 2]) :=
  retry_behavior.1 Unit _ (fun _ => rfl)

/-- Counterexample for C3 as stated: the Crossref identifier lookup
performs exactly one attempt on an always-failing transport, not 3. -/
theorem crossref_doi_no_retry_cex :
    crossrefGetByDoiCall (fun _ => (none : Option Unit)) = (none, 1, []) ∧
      (1 : Nat) ≠ 3 :=
  ⟨rfl, by decide⟩

/-- C4 (amended): Elsevier, PubMed and Semantic Scholar are each
individually disabled by their toggle, and Elsevier / PubMed are also
disabled by a missing credential; a disabled provider is never consulted.
(Crossref has no toggle; see the counterexample.) -/
theorem provider_toggles (cfg : Cfg) (env : Env) (e : Entry) :
    (cfg.useElsevier = false ∨ otruthy cfg.elsevierKey = false →
      ∀ c ∈ (enrichEntry cfg env e).2, PCall.toElsevier c = false) ∧
    (cfg.usePubmed = false ∨ otruthy cfg.pubmedEmail = false →
      ∀ c ∈ (enrichEntry cfg env e).2, PCall.toPubmed c = false) ∧
    (cfg.useSS = false → ∀ c ∈ (enrichEntry cfg env e).2, PCall.toSS c = false) := by
  have key : ∀ c ∈ (enrichEntry cfg env e).2,
      (∃ t, c = PCall.crossrefSearch t) ∨
      ∃ s, stepGuard cfg (postEntry env e) (postDoi env e) s = true ∧
        c = stepCallTag (postEntry env e) (postDoi env e) s := by
    intro c hc
    cases hdry : cfg.dryRun with
    | true => simp [enrichEntry, hdry] at hc
    | false =>
      cases habs : otruthy (Entry.get e "abstract") with
      | true => simp [enrichEntry, hdry, habs] at hc
      | false =>
        rw [enrichEntry_eq cfg env e hdry habs] at hc
        rcases List.mem_append.mp hc with hc | hc
        · exact Or.inl (discoverTrace_mem env e c hc)
        · obtain ⟨s, _, hgs, hcs⟩ := runSteps_calls cfg env _ _ stepOrder c hc
          exact Or.inr ⟨s, hgs, hcs⟩
  refine ⟨fun hyp c hc => ?_, fun hyp c hc => ?_, fun hyp c hc => ?_⟩
  · rcases key c hc with ⟨t, rfl⟩ | ⟨s, hgs, rfl⟩
    · rfl
    · cases s <;> simp_all [stepGuard, stepCallTag, PCall.toElsevier]
  · rcases key c hc with ⟨t, rfl⟩ | ⟨s, hgs, rfl⟩
    · rfl
    · cases s <;> simp_all [stepGuard, stepCallTag, PCall.toPubmed]
  · rcases key c hc with ⟨t, rfl⟩ | ⟨s, hgs, rfl⟩
    · rfl
    · cases s <;> simp_all [stepGuard, stepCallTag, PCall.toSS]

/-- Witness for C4's amended theorem: with Elsevier toggled off, the one
consultation made for a DOI-bearing record is not an Elsevier call. -/
theorem provider_toggles_witness :
    PCall.toElsevier (PCall.crossrefDoi "10.1/x") = false :=
  (provider_toggles cfgOff envNone [("doi", "10.1/x")]).1 (Or.inl rfl)
    (PCall.crossrefDoi "10.1/x") (by decide)

/-- Counterexample for C4 as stated: with all three toggles off and no
credentials configured, `enrich_entry` still consults Crossref — Crossref
has no disabling configuration. -/
theorem crossref_always_on_cex :
    (enrichEntry cfgOff envNone [("doi", "10.1/x")]).2 =
        [PCall.crossrefDoi "10.1/x"] ∧
      PCall.toCrossref (PCall.crossrefDoi "10.1/x") = true := by
  decide

/-- C1: for a record entering the fallback flow, the abstract-seeking
provider steps run exactly in the fixed order Elsevier (DOI, then title),
PubMed (PMID, then title), Crossref (DOI, then title), Semantic Scholar
(DOI, then title), restricted to the steps whose guards hold; when every
performed step yields nothing, all of them run; the first step yielding a
truthy abstract has it written to the record and every later step is
skipped.  (The DOI-discovery Crossref search precedes them and is part of
the trace.) -/
theorem fallback_order_first_success (cfg : Cfg) (env : Env) (e : Entry)
    (hdry : cfg.dryRun = false) (habs : otruthy (Entry.get e "abstract") = false) :
    ((∀ s ∈ plannedSteps cfg env e, plannedYield env e s = none) →
      enrichEntry cfg env e =
        (postEntry env e,
         discoverTrace env e ++ (plannedSteps cfg env e).map (plannedTag env e))) ∧
    (∀ (l₁ : List StepId) (s : StepId) (l₂ : List StepId) (t : String),
      plannedSteps cfg env e = l₁ ++ s :: l₂ →
      (∀ u ∈ l₁, plannedYield env e u = none) →
      plannedYield env e s = some t →
      enrichEntry cfg env e =
        (Entry.set (postEntry env e) "abstract" t,
         discoverTrace env e ++ (l₁ ++ [s]).map (plannedTag env e))) := by
  constructor
  · intro hn
    rw [enrichEntry_eq cfg env e hdry habs]
    rw [runSteps_none cfg env _ _ stepOrder
      (fun s hs hg => hn s (by simpa [plannedSteps, List.mem_filter] using ⟨hs, hg⟩))]
    simp [plannedSteps, plannedTag]
  · intro l₁ s l₂ t hf h1 hs
    rw [enrichEntry_eq cfg env e hdry habs]
    rw [runSteps_split cfg env _ _ stepOrder l₁ s l₂ t hf h1 hs]
    simp [plannedTag]

/-- Witness for C1: with all providers on and only Elsevier answering,
the first planned step (the Elsevier DOI lookup) wins and nothing later
runs. -/
theorem fallback_order_witness :
    enrichEntry cfgOn envElsOnly [("doi", "10.1/x"), ("title", "T")] =
      (Entry.set (postEntry envElsOnly [("doi", "10.1/x"), ("title", "T")])
        "abstract" "An abstract.",
       discoverTrace envElsOnly [("doi", "10.1/x"), ("title", "T")] ++
         ([] ++ [StepId.elsDoi]).map
           (plannedTag envElsOnly [("doi", "10.1/x"), ("title", "T")])) :=
  (fallback_order_first_success cfgOn envElsOnly _ rfl (by decide)).2 []
    .elsDoi [.elsTitle, .pmTitle, .crDoi, .crTitle, .ssDoi, .ssTitle]
    "An abstract." (by decide) (by decide) (by decide)

/-- C2 (amended): the abstract a winning provider step returns is stored
in the record verbatim — `enrich_entry` never passes it through the
Record Cleaner (see the counterexample for the original claim). -/
theorem abstract_stored_verbatim (cfg : Cfg) (env : Env) (e : Entry)
    (hdry : cfg.dryRun = false) (habs : otruthy (Entry.get e "abstract") = false)
    (l₁ : List StepId) (s : StepId) (l₂ : List StepId) (t : String)
    (hf : plannedSteps cfg env e = l₁ ++ s :: l₂)
    (h1 : ∀ u ∈ l₁, plannedYield env e u = none)
    (hs : plannedYield env e s = some t) :
    Entry.get (enrichEntry cfg env e).1 "abstract" = some t := by
  rw [enrichEntry_eq cfg env e hdry habs]
  rw [runSteps_split cfg env _ _ stepOrder l₁ s l₂ t hf h1 hs]
  exact Entry.get_set_self _ _ _

/-- Witness for C2's amended theorem at a concrete scenario. -/
theorem abstract_stored_verbatim_witness :
    Entry.get (enrichEntry cfgOn envElsOnly
      [("doi", "10.1/x"), ("title", "T")]).1 "abstract" = some "An abstract." :=
  abstract_stored_verbatim cfgOn envElsOnly _ rfl (by decide) []
    .elsDoi [.elsTitle, .pmTitle, .crDoi, .crTitle, .ssDoi, .ssTitle]
    "An abstract." (by decide) (by decide) (by decide)

/-- Counterexample for C2 as stated: a provider abstract containing
markup and an HTML entity is stored raw; the Record Cleaner's
`clean_abstract` would have produced a different string. -/
theorem abstract_not_cleaned_cex :
    Entry.get (enrichEntry cfgOff envRawAbs [("doi", "10.1/x")]).1 "abstract" =
        some "<p>Foo &amp; Bar</p>" ∧
      cleanAbstract "<p>Foo &amp; Bar</p>" = some "Foo & Bar" ∧
      some "<p>Foo &amp; Bar</p>" ≠ cleanAbstract "<p>Foo &amp; Bar</p>" := by
  refine ⟨by decide, by decide, by decide⟩

/-- C8: when no performed provider step yields an abstract, every field
of the record except possibly `doi` (set by the discovery step) is
returned unchanged. -/
theorem failed_frame (cfg : Cfg) (env : Env) (e : Entry)
    (hdry : cfg.dryRun = false) (habs : otruthy (Entry.get e "abstract") = false)
    (hno : ∀ s ∈ plannedSteps cfg env e, plannedYield env e s = none) :
    ∀ k, k ≠ "doi" → Entry.get (enrichEntry cfg env e).1 k = Entry.get e k := by
  intro k hk
  rw [enrichEntry_eq cfg env e hdry habs]
  rw [runSteps_none cfg env _ _ stepOrder
    (fun s hs hg => hno s (by simpa [plannedSteps, List.mem_filter] using ⟨hs, hg⟩))]
  rcases postEntry_eq env e with h | ⟨d, h⟩
  · rw [h]
  · rw [h, Entry.get_set_ne _ _ _ _ hk]

/-- Witness for C8: a record whose every provider attempt fails keeps its
title verbatim. -/
theorem failed_frame_witness :
    Entry.get (enrichEntry cfgOn envNone [("title", "T")]).1 "title" =
      Entry.get [("title", "T")] "title" :=
  failed_frame cfgOn envNone _ rfl (by decide) (by decide) "title" (by decide)

theorem crScored_cons_none (query : String) (it : Json) (rest : List Json)
    (h : crTitleOf it = none) :
    crScored query (it :: rest) = crScored query rest := by
  simp [crScored, List.filterMap_cons, h]

theorem crScored_cons_some (query : String) (it : Json) (rest : List Json)
    (rt : String) (h : crTitleOf it = some rt) :
    crScored query (it :: rest) =
      (it, titleSimilarity query rt) :: crScored query rest := by
  simp [crScored, List.filterMap_cons, h]

theorem pickGo_eq_bestOf (query : String) (minSim : ℚ) :
    ∀ (l : List Json) (bm : Option Json) (bs : ℚ),
    crossrefPickGo query minSim l bm bs =
      (if minSim ≤ (bestOf (crScored query l) (bm, bs)).2 then
        (bestOf (crScored query l) (bm, bs)).1 else none) := by
  intro l
  induction l with
  | nil => intro bm bs; simp [crossrefPickGo, crScored, bestOf]
  | cons it rest ih =>
    intro bm bs
    cases hti : crTitleOf it with
    | none =>
      rw [crScored_cons_none query it rest hti]
      simp only [crossrefPickGo, hti]
      exact ih bm bs
    | some rt =>
      rw [crScored_cons_some query it rest rt hti]
      simp only [crossrefPickGo, hti]
      by_cases hlt : bs < titleSimilarity query rt
      · rw [if_pos hlt, ih, bestOf]
        simp [hlt]
      · rw [if_neg hlt, ih, bestOf]
        simp [hlt]

theorem bestOf_char : ∀ (l : List (Json × ℚ)) (accm : Option Json) (accv : ℚ),
    (bestOf l (accm, accv) = (accm, accv) ∧ ∀ p ∈ l, p.2 ≤ accv) ∨
    (accv < (bestOf l (accm, accv)).2 ∧
      ∃ it, (bestOf l (accm, accv)).1 = some it ∧
        (it, (bestOf l (accm, accv)).2) ∈ l ∧
        (∀ p ∈ l, p.2 ≤ (bestOf l (accm, accv)).2) ∧
        l.find? (fun p => decide (p.2 = (bestOf l (accm, accv)).2)) =
          some (it, (bestOf l (accm, accv)).2)) := by
  intro l
  induction l with
  | nil => intro accm accv; left; exact ⟨rfl, by simp⟩
  | cons q rest ih =>
    intro accm accv
    by_cases hq : accv < q.2
    · have step : bestOf (q :: rest) (accm, accv) = bestOf rest (some q.1, q.2) := by
        simp [bestOf, hq]
      rcases ih q.1 q.2 with ⟨heq, hle⟩ | ⟨hlt, it, h1, h2, h3, h4⟩
      · right
        rw [step, heq]
        refine ⟨hq, q.1, rfl, ?_, ?_, ?_⟩
        · exact List.mem_cons_self _ _
        · intro p hp
          rcases List.mem_cons.mp hp with rfl | hp
          · exact le_refl _
          · exact hle p hp
        · simp
      · right
        rw [step]
        refine ⟨lt_trans hq hlt, it, h1, List.mem_cons_of_mem _ h2, ?_, ?_⟩
        · intro p hp
          rcases List.mem_cons.mp hp with rfl | hp
          · exact le_of_lt hlt
          · exact h3 p hp
        · rw [List.find?_cons_of_neg _ (by simp; exact ne_of_lt hlt)]
          exact h4
    · have step : bestOf (q :: rest) (accm, accv) = bestOf rest (accm, accv) := by
        simp [bestOf, hq]
      rcases ih accm accv with ⟨heq, hle⟩ | ⟨hlt, it, h1, h2, h3, h4⟩
      · left
        rw [step, heq]
        refine ⟨rfl, ?_⟩
        intro p hp
        rcases List.mem_cons.mp hp with rfl | hp
        · exact le_of_not_lt hq
        · exact hle p hp
      · right
        rw [step]
        refine ⟨hlt, it, h1, List.mem_cons_of_mem _ h2, ?_, ?_⟩
        · intro p hp
          rcases List.mem_cons.mp hp with rfl | hp
          · exact le_of_lt (lt_of_le_of_lt (le_of_not_lt hq) hlt)
          · exact h3 p hp
        · rw [List.find?_cons_of_neg _
            (by simp; exact ne_of_lt (lt_of_le_of_lt (le_of_not_lt hq) hlt))]
          exact h4

/-- C6: the Crossref title-search selection returns the candidate with
the maximum similarity score; it returns a candidate only when that
score meets the threshold (otherwise no match); and a tie at the maximum
keeps the first-seen candidate (the returned candidate is the first in
iteration order whose score equals the maximum). -/
theorem crossref_selection (query : String) (items : List Json) (minSim : ℚ)
    (hpos : 0 < minSim) :
    (∀ it, crossrefPick query items minSim = some it →
      ∃ s, (it, s) ∈ crScored query items ∧
        (∀ p ∈ crScored query items, p.2 ≤ s) ∧ minSim ≤ s ∧
        (crScored query items).find? (fun p => decide (p.2 = s)) = some (it, s)) ∧
    ((∀ p ∈ crScored query items, p.2 < minSim) →
      crossrefPick query items minSim = none) ∧
    ((∃ p ∈ crScored query items, minSim ≤ p.2) →
      ∃ it, crossrefPick query items minSim = some it) := by
  by_cases hemp : items.isEmpty
  · have hsc : crScored query items = [] := by
      rw [List.isEmpty_iff] at hemp
      simp [crScored, hemp]
    refine ⟨?_, ?_, ?_⟩
    · intro it hit; rw [crossrefPick, if_pos (by simpa [List.isEmpty_iff] using
        (List.isEmpty_iff.mp hemp))] at hit; exact absurd hit (by simp)
    · intro _; rw [crossrefPick]; simp [List.isEmpty_iff.mp hemp]
    · intro ⟨p, hp, _⟩; rw [hsc] at hp; exact absurd hp (by simp)
  · have hpick : crossrefPick query items minSim =
        (if minSim ≤ (bestOf (crScored query items) (none, 0)).2 then
          (bestOf (crScored query items) (none, 0)).1 else none) := by
      rw [crossrefPick, if_neg (by simpa using hemp), pickGo_eq_bestOf]
    refine ⟨?_, ?_, ?_⟩
    · intro it hit
      rw [hpick] at hit
      rcases bestOf_char (crScored query items) none 0 with ⟨heq, _⟩ |
        ⟨_, it', h1, h2, h3, h4⟩
      · rw [heq] at hit
        split at hit <;> simp at hit
      · split at hit
        · rw [h1] at hit
          obtain rfl : it' = it := by injection hit
          exact ⟨(bestOf (crScored query items) (none, 0)).2, h2, h3, by assumption, h4⟩
        · exact absurd hit (by simp)
    · intro hall
      rw [hpick]
      rcases bestOf_char (crScored query items) none 0 with ⟨heq, _⟩ |
        ⟨_, it', h1, h2, _, _⟩
      · rw [heq]; split <;> rfl
      · rw [if_neg (not_le.mpr (hall _ h2))]
    · intro ⟨p, hp, hpv⟩
      rw [hpick]
      rcases bestOf_char (crScored query items) none 0 with ⟨_, hle⟩ |
        ⟨_, it', h1, _, h3, _⟩
      · exact absurd (lt_of_lt_of_le hpos (hpv.trans (hle p hp))) (by simp)
      · rw [if_pos ((hpv.trans (h3 p hp)))]
        exact ⟨it', h1⟩

theorem ratioOf_eq (a b : List Char) (m la lb : Nat)
    (hm : matchTotalF a b (b2jOf b) a.length 0 a.length 0 b.length = m)
    (hla : a.length = la) (hlb : b.length = lb) (h : ¬la + lb = 0) :
    ratioOf a b = ((2 * m : Nat) : ℚ) / ((la + lb : Nat) : ℚ) := by
  rw [ratioOf, hm, hla, hlb, if_neg h]

/-- Witness for C6 at a concrete query, candidate list and threshold. -/
theorem crossref_selection_witness :
    ∃ it, crossrefPick "deep learning"
      [Json.obj [("title", Json.str "Deep Learning!"), ("DOI", Json.str "d")]]
      (17 / 20 : ℚ) = some it := by
  have hts : titleSimilarity "deep learning" "Deep Learning!" =
      ((2 * 13 : Nat) : ℚ) / ((13 + 13 : Nat) : ℚ) := by
    rw [titleSimilarity]
    exact ratioOf_eq _ _ 13 13 13 (by decide) (by decide) (by decide) (by decide)
  refine (crossref_selection "deep learning"
    [Json.obj [("title", Json.str "Deep Learning!"), ("DOI", Json.str "d")]]
    (17 / 20 : ℚ) (by norm_num)).2.2
    ⟨(Json.obj [("title", Json.str "Deep Learning!"), ("DOI", Json.str "d")],
      titleSimilarity "deep learning" "Deep Learning!"), ?_, ?_⟩
  · exact List.mem_singleton.mpr rfl
  · rw [hts]; norm_num

theorem StOK_mono (alo u u' blo bhi : Nat) (h : u ≤ u') (st : FSt)
    (hs : StOK alo u blo bhi st) : StOK alo u' blo bhi st := by
  refine ⟨hs.1, fun h1 => ?_⟩
  obtain ⟨a1, a2, a3, a4⟩ := hs.2 h1
  exact ⟨a1, le_trans a2 h, a3, a4⟩

theorem dget_le (blo bhi cap : Nat) (t : List (Nat × Nat)) (h : TblOK blo bhi cap t)
    (j : Nat) : dget t j ≤ cap ∧ (blo ≤ j + 1 → dget t j + blo ≤ j + 1) := by
  unfold dget
  cases hf : t.find? (fun p => p.1 = j) with
  | none => simp only [hf]; exact ⟨Nat.zero_le _, fun hb => by omega⟩
  | some p =>
    simp only [hf]
    obtain ⟨q1, q2, q3, q4⟩ := h p (List.mem_of_find?_eq_some hf)
    have hpj : p.1 = j := by simpa using List.find?_some hf
    exact ⟨q4, fun _ => by omega⟩

theorem innerRow_ok (blo bhi i alo cap : Nat) (old : List (Nat × Nat))
    (hold : TblOK blo bhi cap old) (hcap : cap + alo ≤ i) (_hi : alo ≤ i) :
    ∀ (js : List Nat) (acc : List (Nat × Nat)) (st : FSt),
    TblOK blo bhi (cap + 1) acc → StOK alo (i + 1) blo bhi st →
    TblOK blo bhi (cap + 1) (innerRow blo bhi i old js acc st).1 ∧
    StOK alo (i + 1) blo bhi (innerRow blo bhi i old js acc st).2 := by
  intro js
  induction js with
  | nil => intro acc st ha hs; exact ⟨ha, hs⟩
  | cons j js ih =>
    intro acc st ha hs
    by_cases h1 : j < blo
    · simp only [innerRow, if_pos h1]
      exact ih acc st ha hs
    · by_cases h2 : bhi ≤ j
      · simp only [innerRow, if_neg h1, if_pos h2]
        exact ⟨ha, hs⟩
      · have hblo : blo ≤ j := Nat.le_of_not_lt h1
        have hjb : j < bhi := Nat.lt_of_not_le h2
        have hd := dget_le blo bhi cap old hold (j - 1)
        have hK1 : (if j = 0 then 0 else dget old (j - 1)) + 1 ≤ cap + 1 := by
          by_cases hj0 : j = 0
          · simp [hj0]
          · rw [if_neg hj0]; have := hd.1; omega
        have hK2 : (if j = 0 then 0 else dget old (j - 1)) + 1 + blo ≤ j + 1 := by
          by_cases hj0 : j = 0
          · subst hj0; simp; omega
          · rw [if_neg hj0]
            have h21 := hd.2 (by omega)
            omega
        simp only [innerRow, if_neg h1, if_neg h2]
        refine ih _ _ ?_ ?_
        · intro p hp
          rcases List.mem_cons.mp hp with rfl | hp
          · exact ⟨hblo, hjb, hK2, hK1⟩
          · exact ha p hp
        · by_cases hup : st.sz < (if j = 0 then 0 else dget old (j - 1)) + 1
          · rw [if_pos hup]
            refine ⟨fun h0 => absurd h0 (Nat.succ_ne_zero _), fun _ => ⟨?_, ?_, ?_, ?_⟩⟩
            · show alo ≤ i + 1 - ((if j = 0 then 0 else dget old (j - 1)) + 1)
              omega
            · show i + 1 - ((if j = 0 then 0 else dget old (j - 1)) + 1) +
                ((if j = 0 then 0 else dget old (j - 1)) + 1) ≤ i + 1
              omega
            · show blo ≤ j + 1 - ((if j = 0 then 0 else dget old (j - 1)) + 1)
              omega
            · show j + 1 - ((if j = 0 then 0 else dget old (j - 1)) + 1) +
                ((if j = 0 then 0 else dget old (j - 1)) + 1) ≤ bhi
              omega
          · rw [if_neg hup]; exact hs

theorem flmScan_ok (a : List Char) (b2 : Char → List Nat) (alo blo bhi : Nat) :
    ∀ (n i : Nat) (old : List (Nat × Nat)) (st : FSt) (cap : Nat),
    TblOK blo bhi cap old → cap + alo ≤ i → alo ≤ i → StOK alo i blo bhi st →
    StOK alo (i + n) blo bhi (flmScan a b2 blo bhi n i old st) := by
  intro n
  induction n with
  | zero => intro i old st cap _ _ _ hs; simpa [flmScan] using hs
  | succ n ih =>
    intro i old st cap hold hcap hi hs
    simp only [flmScan]
    have hrow := innerRow_ok blo bhi i alo cap old hold hcap hi
      (b2 (a.getD i ' ')) [] st (by intro p hp; simp at hp)
      (StOK_mono alo i (i + 1) blo bhi (by omega) st hs)
    have hrec := ih (i + 1) _ _ (cap + 1) hrow.1 (by omega) (by omega) hrow.2
    have hshift : i + 1 + n = i + (n + 1) := by omega
    rw [hshift] at hrec
    exact hrec

theorem extBack_ok (a b : List Char) (alo blo U bhi : Nat) :
    ∀ (bi bj sz : Nat), StOK alo U blo bhi ⟨bi, bj, sz⟩ →
    StOK alo U blo bhi (extBack a b alo blo bi bj sz) := by
  intro bi
  induction bi with
  | zero => intro bj sz hs; simpa [extBack] using hs
  | succ bi ih =>
    intro bj sz hs
    simp only [extBack]
    by_cases hcond :
        (alo < bi + 1 && blo < bj && charEq (a.get? bi) (b.get? (bj - 1))) = true
    · rw [if_pos hcond]
      simp only [Bool.and_eq_true, decide_eq_true_eq] at hcond
      obtain ⟨⟨hlo, hbj⟩, _⟩ := hcond
      have hsz : 1 ≤ sz := by
        rcases Nat.eq_zero_or_pos sz with h0 | h
        · have h5 : bi + 1 = alo := (hs.1 h0).1
          omega
        · exact h
      obtain ⟨c1, c2, c3, c4⟩ := hs.2 hsz
      have c1' : alo ≤ bi + 1 := c1
      have c2' : bi + 1 + sz ≤ U := c2
      have c3' : blo ≤ bj := c3
      have c4' : bj + sz ≤ bhi := c4
      refine ih (bj - 1) (sz + 1)
        ⟨fun h0 => absurd h0 (Nat.succ_ne_zero _), fun _ => ⟨?_, ?_, ?_, ?_⟩⟩
      · show alo ≤ bi
        omega
      · show bi + (sz + 1) ≤ U
        omega
      · show blo ≤ bj - 1
        omega
      · show bj - 1 + (sz + 1) ≤ bhi
        omega
    · rw [if_neg hcond]; exact hs

theorem extFwd_ok (a b : List Char) (alo blo ahi bhi bi bj : Nat) :
    ∀ (rem sz : Nat), bi + sz + rem ≤ ahi →
    (sz = 0 → bi = alo ∧ bj = blo) →
    (1 ≤ sz → alo ≤ bi ∧ bi + sz ≤ ahi ∧ blo ≤ bj ∧ bj + sz ≤ bhi) →
    (1 ≤ extFwd a b bhi bi bj rem sz →
      alo ≤ bi ∧ bi + extFwd a b bhi bi bj rem sz ≤ ahi ∧ blo ≤ bj ∧
        bj + extFwd a b bhi bi bj rem sz ≤ bhi) := by
  intro rem
  induction rem with
  | zero => intro sz _ _ h1; simpa [extFwd] using h1
  | succ rem ih =>
    intro sz hrem h0 h1
    simp only [extFwd]
    by_cases hcond :
        (bj + sz < bhi && charEq (a.get? (bi + sz)) (b.get? (bj + sz))) = true
    · rw [if_pos hcond]
      simp only [Bool.and_eq_true, decide_eq_true_eq] at hcond
      obtain ⟨hb, _⟩ := hcond
      refine ih (sz + 1) (by omega) (fun h => absurd h (Nat.succ_ne_zero _)) ?_
      intro _
      rcases Nat.eq_zero_or_pos sz with h0' | hpos
      · obtain ⟨he1, he2⟩ := h0 h0'
        subst h0'
        exact ⟨le_of_eq he1.symm, by omega, le_of_eq he2.symm, by omega⟩
      · obtain ⟨c1, c2, c3, c4⟩ := h1 hpos
        exact ⟨c1, by omega, c3, by omega⟩
    · rw [if_neg hcond]; exact h1

theorem flm_sz_bounds (a b : List Char) (b2 : Char → List Nat)
    (alo ahi blo bhi : Nat)
    (h : 1 ≤ (findLongestMatch a b b2 alo ahi blo bhi).sz) :
    alo ≤ (findLongestMatch a b b2 alo ahi blo bhi).bi ∧
    (findLongestMatch a b b2 alo ahi blo bhi).bi +
      (findLongestMatch a b b2 alo ahi blo bhi).sz ≤ ahi ∧
    blo ≤ (findLongestMatch a b b2 alo ahi blo bhi).bj ∧
    (findLongestMatch a b b2 alo ahi blo bhi).bj +
      (findLongestMatch a b b2 alo ahi blo bhi).sz ≤ bhi := by
  by_cases hao : alo ≤ ahi
  · have hs0 : StOK alo ahi blo bhi
        (flmScan a b2 blo bhi (ahi - alo) alo [] ⟨alo, blo, 0⟩) := by
      have hinit : StOK alo alo blo bhi (⟨alo, blo, 0⟩ : FSt) :=
        ⟨fun _ => ⟨rfl, rfl⟩,
         fun h1 => absurd (show (1 : Nat) ≤ 0 from h1) (by omega)⟩
      have := flmScan_ok a b2 alo blo bhi (ahi - alo) alo [] ⟨alo, blo, 0⟩ 0
        (by intro p hp; simp at hp) (by omega) (le_refl _) hinit
      have heq : alo + (ahi - alo) = ahi := by omega
      rw [heq] at this
      exact this
    set st0 := flmScan a b2 blo bhi (ahi - alo) alo [] (⟨alo, blo, 0⟩ : FSt) with hst0
    have hs1 : StOK alo ahi blo bhi (extBack a b alo blo st0.bi st0.bj st0.sz) :=
      extBack_ok a b alo blo ahi bhi st0.bi st0.bj st0.sz hs0
    set st1 := extBack a b alo blo st0.bi st0.bj st0.sz with hst1
    have hrem : st1.bi + st1.sz + (ahi - (st1.bi + st1.sz)) ≤ ahi := by
      rcases Nat.eq_zero_or_pos st1.sz with h0 | hpos
      · have := (hs1.1 h0).1; omega
      · have := hs1.2 hpos; omega
    have hfin := extFwd_ok a b alo blo ahi bhi st1.bi st1.bj
      (ahi - (st1.bi + st1.sz)) st1.sz hrem hs1.1 hs1.2
    exact hfin h
  · exfalso
    have hsz : (findLongestMatch a b b2 alo ahi blo bhi).sz = 0 := by
      have hn : ahi - alo = 0 := by omega
      have hb : extBack a b alo blo alo blo 0 = (⟨alo, blo, 0⟩ : FSt) := by
        cases alo with
        | zero => simp [extBack]
        | succ m => simp [extBack]
      have hr : ahi - (alo + 0) = 0 := by omega
      unfold findLongestMatch
      rw [hn]
      simp only [flmScan]
      rw [hb]
      simp only [hr, extFwd]
    omega

theorem matchTotalF_le (a b : List Char) (b2 : Char → List Nat) :
    ∀ (f alo ahi blo bhi : Nat),
    matchTotalF a b b2 f alo ahi blo bhi ≤ ahi - alo ∧
    matchTotalF a b b2 f alo ahi blo bhi ≤ bhi - blo := by
  intro f
  induction f with
  | zero => intro alo ahi blo bhi; simp [matchTotalF]
  | succ f ih =>
    intro alo ahi blo bhi
    simp only [matchTotalF]
    by_cases hz : (findLongestMatch a b b2 alo ahi blo bhi).sz = 0
    · rw [if_pos hz]; omega
    · rw [if_neg hz]
      have hb := flm_sz_bounds a b b2 alo ahi blo bhi (by omega)
      have ihl := ih alo (findLongestMatch a b b2 alo ahi blo bhi).bi blo
        (findLongestMatch a b b2 alo ahi blo bhi).bj
      have ihr := ih ((findLongestMatch a b b2 alo ahi blo bhi).bi +
          (findLongestMatch a b b2 alo ahi blo bhi).sz) ahi
        ((findLongestMatch a b b2 alo ahi blo bhi).bj +
          (findLongestMatch a b b2 alo ahi blo bhi).sz) bhi
      omega

theorem ratioOf_bounds (a b : List Char) : 0 ≤ ratioOf a b ∧ ratioOf a b ≤ 1 := by
  rw [ratioOf]
  by_cases h : a.length + b.length = 0
  · rw [if_pos h]; norm_num
  · rw [if_neg h]
    have hM := matchTotalF_le a b (b2jOf b) a.length 0 a.length 0 b.length
    have h2 : 2 * matchTotalF a b (b2jOf b) a.length 0 a.length 0 b.length ≤
        a.length + b.length := by omega
    have hpos : (0 : ℚ) < ((a.length + b.length : Nat) : ℚ) := by
      exact_mod_cast Nat.pos_of_ne_zero h
    constructor
    · exact div_nonneg (by exact_mod_cast Nat.zero_le _) (le_of_lt hpos)
    · rw [div_le_one hpos]
      exact_mod_cast h2

/-- C7 (amended): the title similarity always lies in `[0, 1]`; symmetry,
however, fails in general (see the counterexample), so only the range
half of the claim holds. -/
theorem similarity_bounds (t1 t2 : String) :
    0 ≤ titleSimilarity t1 t2 ∧ titleSimilarity t1 t2 ≤ 1 := by
  rw [titleSimilarity]; exact ratioOf_bounds _ _

/-- Counterexample for C7 as stated: the sequence-matcher ratio is not
symmetric — `similarity("aba", "babba") = 3/4` while
`similarity("babba", "aba") = 1/2` (the matcher anchors on the first
longest block of the first argument, and the remainders differ). -/
theorem similarity_asymmetric_cex :
    titleSimilarity "aba" "babba" ≠ titleSimilarity "babba" "aba" := by
  have e1 : titleSimilarity "aba" "babba" =
      ((2 * 3 : Nat) : ℚ) / ((3 + 5 : Nat) : ℚ) := by
    rw [titleSimilarity]
    exact ratioOf_eq _ _ 3 3 5 (by decide) (by decide) (by decide) (by decide)
  have e2 : titleSimilarity "babba" "aba" =
      ((2 * 2 : Nat) : ℚ) / ((5 + 3 : Nat) : ℚ) := by
    rw [titleSimilarity]
    exact ratioOf_eq _ _ 2 5 3 (by decide) (by decide) (by decide) (by decide)
  rw [e1, e2]
  norm_num

end BibEnrich
